import Mathlib

/-!
Verification of the `auto_reader` repository: a shallow embedding of the
playback/position state machine implemented in the `<script>` block of
`src/app.py` (function `get_tts_component`) and of the text-extraction
helpers in `src/extractors.py`, together with theorems settling the frozen
claims about the natural-language specification.

Modelling conventions:
* JavaScript numbers that hold chunk/word indices are modelled as `Int`
  (stored positions can be negative, and `currentChunk` can reach
  `chunks.length` after the final utterance ends).
* `localStorage` for the document key is a single slot
  `Option StoredBlob`; `StoredBlob.malformed` stands for a stored string
  that `JSON.parse` rejects (the load code would throw there), and
  `StoredBlob.pos c w` stands for a parsed object whose `chunk`/`word`
  fields are `c`/`w` (`none` = the field is absent/`undefined`).
* The speech synthesiser is modelled by a `speaking` flag (`synth.speak`
  sets it, `synth.cancel` clears it) plus the list `synthRequests` of the
  exact texts handed to `SpeechSynthesisUtterance`.  The word-boundary /
  end handlers installed on the utterance are embedded as the functions
  `onWordHandler` / `onEndedHandler`.
* Every read of `chunks[currentChunk]` performed by the script
  (in `speakChunk` and in `updateDisplay`) is recorded in the `accesses`
  field, so that out-of-range access claims can be stated as properties
  of the recorded trace.  The HTML text rendered by `updateDisplay` is
  not modelled (display only); its progress line is modelled by the
  structured `Status` value that records the arguments of the message.
* The spec's playback states map onto the script's variables as follows:
  `Paused` = `isPaused`, `Playing` = an un-paused active utterance,
  `Stopped` = un-paused with no active utterance.  The initial `Idle`
  configuration is identical to `Stopped` (the spec itself calls Stopped
  "`Idle`-equivalent").
-/

namespace AutoReader

/-- JavaScript `x || 0` applied to a possibly-missing numeric field:
`undefined` and `0` give `0`, every other number gives itself. -/
def jsOrZero : Option Int → Int
  | none => 0
  | some v => v

/-- Tokeniser for `text.split(/\s+/).filter(w => w)` in `speakChunk`:
the maximal runs of non-whitespace characters, in order (splitting on
whitespace runs and filtering out the empty pieces). -/
def wordsAux : List Char → List Char → List String
  | [], acc => if acc = [] then [] else [String.mk acc.reverse]
  | c :: cs, acc =>
    if c.isWhitespace then
      if acc = [] then wordsAux cs []
      else String.mk acc.reverse :: wordsAux cs []
    else wordsAux cs (c :: acc)

/-- The word list of a chunk as computed by
`text.split(/\s+/).filter(w => w)` in `speakChunk`. -/
def wordsOf (s : String) : List String :=
  wordsAux s.data []

/-- Content of the `localStorage` slot `autoreader_<docId>` (parsed shape). -/
inductive StoredBlob where
  | malformed
  | pos (chunk : Option Int) (word : Option Int)
  deriving DecidableEq

/-- The text of the `#progress` element, kept structured: `chunkOf i n`
records the arguments of the "Chunk i of n (p%)" message. -/
inductive Status where
  | ready
  | chunkOf (i : Int) (n : Int)
  | finished
  deriving DecidableEq

/-- State of the TTS component's script. -/
structure Engine where
  currentChunk : Int
  currentWord : Int
  isPaused : Bool
  /-- whether the synthesiser currently owns a live utterance -/
  speaking : Bool
  /-- the `spokenWordIndex` closure variable of the current utterance -/
  spokenWordIndex : Int
  /-- the `localStorage` slot for this document -/
  stored : Option StoredBlob
  status : Status
  /-- texts handed to `synth.speak`, oldest first -/
  synthRequests : List String
  /-- every index `i` at which `chunks[i]` was read, oldest first -/
  accesses : List Int
  deriving DecidableEq

/-- The spec's playback states, derived from the script's variables
(`Idle` coincides with `Stopped`, which the spec calls Idle-equivalent). -/
inductive Mode where
  | Playing
  | Paused
  | Stopped
  deriving DecidableEq

def mode (s : Engine) : Mode :=
  if s.isPaused then .Paused else if s.speaking then .Playing else .Stopped

/-- `chunks[i]` for an `Int` index.  A negative index yields `""` here
(JavaScript would yield `undefined` and subsequently throw; no claim
depends on the value read at a negative index). -/
def getChunk (C : List String) (i : Int) : String :=
  if 0 ≤ i then C.getD i.toNat "" else ""

/-- `savePosition()`: overwrite the stored blob with the current position. -/
def savePosition (s : Engine) : Engine :=
  { s with stored := some (.pos (some s.currentChunk) (some s.currentWord)) }

/-- `updateProgress()`: set the progress message from `currentChunk` and
`chunks.length`. -/
def updateProgress (C : List String) (s : Engine) : Engine :=
  { s with status := .chunkOf (s.currentChunk + 1) (C.length : Int) }

/-- `updateDisplay()`: returns immediately when there are no chunks,
otherwise reads `chunks[currentChunk]` (recorded) and updates the
progress message. -/
def updateDisplay (C : List String) (s : Engine) : Engine :=
  if C.length = 0 then s
  else updateProgress C { s with accesses := s.accesses ++ [s.currentChunk] }

/-- `synth.cancel()`. -/
def cancel (s : Engine) : Engine :=
  { s with speaking := false }

/-- `stop()`: clear `isPaused`, cancel synthesis, persist the position.
Note that neither `currentChunk` nor `currentWord` is modified. -/
def stop (s : Engine) : Engine :=
  savePosition { s with isPaused := false, speaking := false }

/-- `speakChunk()`: guard against `currentChunk >= chunks.length`
(falling back to `stop()`), read the chunk, slice its word list from
`currentWord` when resuming mid-chunk, hand the text to the synthesiser
and refresh the display. -/
def speakChunk (C : List String) (s : Engine) : Engine :=
  if (C.length : Int) ≤ s.currentChunk then stop s
  else
    let text := getChunk C s.currentChunk
    let s1 : Engine := { s with accesses := s.accesses ++ [s.currentChunk] }
    let words := wordsOf text
    let textToSpeak :=
      if 0 < s1.currentWord ∧ s1.currentWord < (words.length : Int) then
        String.intercalate " " (words.drop s1.currentWord.toNat)
      else text
    updateDisplay C
      { s1 with
        speaking := true
        spokenWordIndex := s1.currentWord
        synthRequests := s1.synthRequests ++ [textToSpeak] }

/-- `play()`: no-op on an empty document; resume from the stored offset
when paused, otherwise cancel any in-flight utterance and (re)start from
the current position. -/
def play (C : List String) (s : Engine) : Engine :=
  if C.length = 0 then s
  else if s.isPaused then speakChunk C { s with isPaused := false }
  else speakChunk C (cancel s)

/-- `pause()`: set `isPaused`, cancel synthesis, persist the position. -/
def pause (s : Engine) : Engine :=
  savePosition { s with isPaused := true, speaking := false }

/-- `prevChunk()`: cancel, pause, clamp the index below by 0, reset the
word offset, persist, refresh the display. -/
def prevChunk (C : List String) (s : Engine) : Engine :=
  updateDisplay C (savePosition
    { s with
      speaking := false
      isPaused := true
      currentChunk := max 0 (s.currentChunk - 1)
      currentWord := 0 })

/-- `nextChunk()`: cancel, pause, clamp the index above by
`chunks.length - 1`, reset the word offset, persist, refresh the display. -/
def nextChunk (C : List String) (s : Engine) : Engine :=
  updateDisplay C (savePosition
    { s with
      speaking := false
      isPaused := true
      currentChunk := min ((C.length : Int) - 1) (s.currentChunk + 1)
      currentWord := 0 })

/-- `resetPosition()`: cancel, clear `isPaused`, go back to chunk 0 word
0, persist, refresh the display. -/
def resetPosition (C : List String) (s : Engine) : Engine :=
  updateDisplay C (savePosition
    { s with
      speaking := false
      isPaused := false
      currentChunk := 0
      currentWord := 0 })

/-- The `utterance.onboundary` handler body for a `"word"` event:
`currentWord = spokenWordIndex; spokenWordIndex++;` then refresh the
display and persist. -/
def onWordHandler (C : List String) (s : Engine) : Engine :=
  savePosition (updateDisplay C
    { s with
      currentWord := s.spokenWordIndex
      spokenWordIndex := s.spokenWordIndex + 1 })

/-- The `utterance.onend` handler body: when not paused, advance to the
next chunk, persist, and either speak it or (after the last chunk)
`stop()` and show the "Finished!" message. -/
def onEndedHandler (C : List String) (s : Engine) : Engine :=
  if s.isPaused then s
  else
    let s1 := savePosition { s with currentChunk := s.currentChunk + 1, currentWord := 0 }
    if s1.currentChunk < (C.length : Int) then speakChunk C s1
    else { stop s1 with status := .finished }

/-- `loadPosition()` as executed at component initialisation, starting
from current position `cur` (the globals start at `(0, 0)`):
nothing stored leaves the position unchanged; a stored string that
`JSON.parse` rejects throws (modelled as `Except.error`); a parsed blob
yields `Math.min(pos.chunk || 0, chunks.length - 1)` and `pos.word || 0`. -/
def loadPosition (n : Int) (cur : Int × Int) :
    Option StoredBlob → Except Unit (Int × Int)
  | none => .ok cur
  | some .malformed => .error ()
  | some (.pos c w) => .ok (min (jsOrZero c) (n - 1), jsOrZero w)

/-- Component initialisation: run `loadPosition()` over the stored blob
(propagating a JSON-parse exception as `none`) and then `updateDisplay()`. -/
def initEngine (C : List String) (saved : Option StoredBlob) : Option Engine :=
  match loadPosition (C.length : Int) (0, 0) saved with
  | .error _ => none
  | .ok (c, w) =>
      some (updateDisplay C
        { currentChunk := c
          currentWord := w
          isPaused := false
          speaking := false
          spokenWordIndex := 0
          stored := saved
          status := .ready
          synthRequests := []
          accesses := [] })

/-- External events the script reacts to: the six buttons, plus the
word-boundary and natural-end events of the live utterance. -/
inductive Ev where
  | press_play
  | press_pause
  | press_stop
  | press_prev
  | press_next
  | press_reset
  | word
  | ended
  deriving DecidableEq

/-- One event step.  `word`/`ended` are deliverable only while an
utterance is live; a natural end retires the utterance before its
handler runs. -/
def step (C : List String) (s : Engine) : Ev → Option Engine
  | .press_play => some (play C s)
  | .press_pause => some (pause s)
  | .press_stop => some (stop s)
  | .press_prev => some (prevChunk C s)
  | .press_next => some (nextChunk C s)
  | .press_reset => some (resetPosition C s)
  | .word => if s.speaking then some (onWordHandler C s) else none
  | .ended => if s.speaking then some (onEndedHandler C (cancel s)) else none

/-- Run a list of events from a state. -/
def runFrom (C : List String) (s : Engine) : List Ev → Option Engine
  | [] => some s
  | e :: evs =>
    match step C s e with
    | none => none
    | some s1 => runFrom C s1 evs

/-- Run a list of events from the freshly initialised component. -/
def runTrace (C : List String) (saved : Option StoredBlob) (evs : List Ev) :
    Option Engine :=
  match initEngine C saved with
  | none => none
  | some s => runFrom C s evs

/-- All chunk-array reads performed along a trace (empty when the trace
is not executable). -/
def accessesOf (C : List String) (saved : Option StoredBlob) (evs : List Ev) :
    List Int :=
  match runTrace C saved evs with
  | none => []
  | some s => s.accesses

end AutoReader

namespace Extractors

/-- ASCII whitespace, as matched by Python's `\s` and stripped by
`str.strip()`. -/
def isPySpace (c : Char) : Bool :=
  c = ' ' || c = '\t' || c = '\n' || c = '\r' || c = '\x0b' || c = '\x0c'

/-- Python `str.strip()` on a character list. -/
def stripChars (l : List Char) : List Char :=
  ((l.dropWhile isPySpace).reverse.dropWhile isPySpace).reverse

/-- Try to match the regex `\n\s*\n` at the head of the list.  The greedy
`\s*` backtracks until the character after it is a newline, so the match
ends at the last newline of the maximal whitespace run following the
first newline.  Returns the remainder after the match. -/
def trySep : List Char → Option (List Char)
  | [] => none
  | c :: cs =>
    if c = '\n' then
      let run := cs.takeWhile isPySpace
      match run.reverse.findIdx? (fun d => d = '\n') with
      | some j => some (cs.drop (run.length - j))
      | none => none
    else none

/-- Fuel-driven scan implementing `re.split(r"\n\s*\n", text)`: at every
position try the leftmost match and split there, otherwise move one
character into the current token.  Every step consumes fuel 1 and at
least one character, so fuel `l.length + 1` always suffices;
`splitSepF_fuel` below shows the result is independent of any
sufficiently large fuel. -/
def splitSepF : Nat → List Char → List Char → List (List Char)
  | _, [], acc => [acc.reverse]
  | 0, l, acc => [acc.reverse ++ l]
  | fuel + 1, c :: cs, acc =>
    match trySep (c :: cs) with
    | some rest => acc.reverse :: splitSepF fuel rest []
    | none => splitSepF fuel cs (c :: acc)

/-- `re.split(r"\n\s*\n", text)` on a character list. -/
def splitSep (l : List Char) : List (List Char) :=
  splitSepF (l.length + 1) l []

/-- The accumulation loop of `chunk_into_paragraphs`: `out` is the
`chunks` list under construction, `b` is `buffer`.  A stripped-empty
paragraph is skipped; a paragraph whose length added to the buffer's
stays below `minLen` is merged into the buffer
(`f"{buffer} {chunk}".strip()`); otherwise the non-empty buffer is
flushed and the paragraph starts a new buffer.  The final buffer is
appended at the end. -/
def mergeLoop (minLen : Nat) : List (List Char) → List (List Char) → List Char → List (List Char)
  | [], out, b => if b = [] then out else out ++ [b]
  | p :: ps, out, b =>
    let c := stripChars p
    if c = [] then mergeLoop minLen ps out b
    else if b.length + c.length < minLen then
      mergeLoop minLen ps out (stripChars (b ++ ' ' :: c))
    else
      mergeLoop minLen ps (if b = [] then out else out ++ [b]) c

/-- `chunk_into_paragraphs(text, min_length)` (the Python default for
`min_length` is 50). -/
def chunk_into_paragraphs (text : String) (minLen : Nat) : List String :=
  (mergeLoop minLen (splitSep text.data) [] []).map (fun l => String.mk l)

/-- `x` occurs contiguously inside `y` ("the paragraph appears in the
chunk"). -/
def occursIn (x y : List Char) : Prop :=
  ∃ u v, y = u ++ x ++ v

/-- A buffer is in stripped form: no leading and no trailing
whitespace. -/
def GoodBuf (b : List Char) : Prop :=
  b.dropWhile isPySpace = b ∧ List.rdropWhile isPySpace b = b

/-- The routing dictionary lookup `extractors.get(file_type)` of
`extract_text`, with the four per-format extractors abstracted as
function parameters (they read files, which is outside the embedding). -/
def extractorFor (extract_pdf extract_epub extract_docx extract_txt : String → String)
    (file_type : String) : Option (String → String) :=
  if file_type = "application/pdf" then some extract_pdf
  else if file_type = "application/epub+zip" then some extract_epub
  else if file_type = "application/vnd.openxmlformats-officedocument.wordprocessingml.document" then
    some extract_docx
  else if file_type = "text/plain" then some extract_txt
  else none

/-- `extract_text(file_path, file_type)`: route on the declared MIME
type; when the type is not in the dictionary, fall back to reading the
file as plain text via `extract_txt`. -/
def extract_text (extract_pdf extract_epub extract_docx extract_txt : String → String)
    (file_path : String) (file_type : String) : String :=
  match extractorFor extract_pdf extract_epub extract_docx extract_txt file_type with
  | none => extract_txt file_path
  | some f => f file_path

end Extractors

namespace AutoReader

/-- Chunk list of the spec's two-chunk scenario. -/
def scenarioChunks : List String := ["Hello world", "Second paragraph here"]

/-- A freshly initialised engine state (chunk 0, word 0, idle). -/
def sampleIdle : Engine :=
  { currentChunk := 0
    currentWord := 0
    isPaused := false
    speaking := false
    spokenWordIndex := 0
    stored := none
    status := .ready
    synthRequests := []
    accesses := [] }

/-- An engine paused at chunk 0, word 0. -/
def samplePaused : Engine := { sampleIdle with isPaused := true }

/-- An engine paused mid-chunk at word index 1. -/
def samplePausedMid : Engine := { samplePaused with currentWord := 1 }

/-- An engine positioned at chunk 1, word 4. -/
def samplePositioned : Engine := { sampleIdle with currentChunk := 1, currentWord := 4 }

end AutoReader

namespace Extractors

/-- Input exhibiting the merge defect of `chunk_into_paragraphs`: a
2-character paragraph followed by a 60-character paragraph. -/
def shortThenLong : String := "hi\n\n" ++ String.mk (List.replicate 60 'a')

end Extractors

namespace AutoReader

@[simp] theorem savePosition_currentChunk (s : Engine) :
    (savePosition s).currentChunk = s.currentChunk := rfl

@[simp] theorem savePosition_currentWord (s : Engine) :
    (savePosition s).currentWord = s.currentWord := rfl

@[simp] theorem savePosition_isPaused (s : Engine) :
    (savePosition s).isPaused = s.isPaused := rfl

@[simp] theorem savePosition_speaking (s : Engine) :
    (savePosition s).speaking = s.speaking := rfl

@[simp] theorem savePosition_spokenWordIndex (s : Engine) :
    (savePosition s).spokenWordIndex = s.spokenWordIndex := rfl

@[simp] theorem savePosition_synthRequests (s : Engine) :
    (savePosition s).synthRequests = s.synthRequests := rfl

@[simp] theorem savePosition_accesses (s : Engine) :
    (savePosition s).accesses = s.accesses := rfl

@[simp] theorem savePosition_stored (s : Engine) :
    (savePosition s).stored = some (.pos (some s.currentChunk) (some s.currentWord)) := rfl

@[simp] theorem updateDisplay_currentChunk (C : List String) (s : Engine) :
    (updateDisplay C s).currentChunk = s.currentChunk := by
  unfold updateDisplay updateProgress
  split <;> rfl

@[simp] theorem updateDisplay_currentWord (C : List String) (s : Engine) :
    (updateDisplay C s).currentWord = s.currentWord := by
  unfold updateDisplay updateProgress
  split <;> rfl

@[simp] theorem updateDisplay_isPaused (C : List String) (s : Engine) :
    (updateDisplay C s).isPaused = s.isPaused := by
  unfold updateDisplay updateProgress
  split <;> rfl

@[simp] theorem updateDisplay_speaking (C : List String) (s : Engine) :
    (updateDisplay C s).speaking = s.speaking := by
  unfold updateDisplay updateProgress
  split <;> rfl

@[simp] theorem updateDisplay_spokenWordIndex (C : List String) (s : Engine) :
    (updateDisplay C s).spokenWordIndex = s.spokenWordIndex := by
  unfold updateDisplay updateProgress
  split <;> rfl

@[simp] theorem updateDisplay_stored (C : List String) (s : Engine) :
    (updateDisplay C s).stored = s.stored := by
  unfold updateDisplay updateProgress
  split <;> rfl

@[simp] theorem updateDisplay_synthRequests (C : List String) (s : Engine) :
    (updateDisplay C s).synthRequests = s.synthRequests := by
  unfold updateDisplay updateProgress
  split <;> rfl

/-- Accesses recorded by `updateDisplay` are the old ones plus possibly
the current chunk index. -/
theorem updateDisplay_accesses_sub (C : List String) (s : Engine) (i : Int)
    (hi : i ∈ (updateDisplay C s).accesses) :
    i ∈ s.accesses ∨ i = s.currentChunk := by
  unfold updateDisplay updateProgress at hi
  split at hi
  · exact .inl hi
  · simpa using hi

/-- Invariant maintained by every reachable engine state: the chunk
index never exceeds the chunk count, a live utterance implies the index
is strictly in range, and every recorded chunk-array read was strictly
below the chunk count. -/
def Inv (C : List String) (s : Engine) : Prop :=
  s.currentChunk ≤ (C.length : Int) ∧
  (s.speaking = true → s.currentChunk < (C.length : Int)) ∧
  ∀ i ∈ s.accesses, i < (C.length : Int)

theorem inv_updateDisplay {C : List String} {s : Engine} (h : Inv C s)
    (hc : s.currentChunk < (C.length : Int) ∨ C.length = 0) :
    Inv C (updateDisplay C s) := by
  obtain ⟨h1, h2, h3⟩ := h
  refine ⟨by simpa using h1, by simpa using h2, ?_⟩
  intro i hi
  rcases updateDisplay_accesses_sub C s i hi with hi' | rfl
  · exact h3 i hi'
  · rcases hc with hc | hc
    · exact hc
    · unfold updateDisplay at hi
      rw [if_pos hc] at hi
      exact h3 _ hi

theorem inv_savePosition {C : List String} {s : Engine} (h : Inv C s) :
    Inv C (savePosition s) := h

theorem inv_cancel {C : List String} {s : Engine} (h : Inv C s) :
    Inv C (cancel s) :=
  ⟨h.1, by simp [cancel], h.2.2⟩

theorem inv_stop {C : List String} {s : Engine} (h : Inv C s) :
    Inv C (stop s) :=
  ⟨h.1, by simp [stop], h.2.2⟩

theorem inv_pause {C : List String} {s : Engine} (h : Inv C s) :
    Inv C (pause s) :=
  ⟨h.1, by simp [pause], h.2.2⟩

theorem inv_speakChunk {C : List String} {s : Engine} (h : Inv C s) :
    Inv C (speakChunk C s) := by
  obtain ⟨h1, h2, h3⟩ := h
  unfold speakChunk
  split
  · exact inv_stop ⟨h1, h2, h3⟩
  · rename_i hg
    push_neg at hg
    apply inv_updateDisplay
    · refine ⟨by show s.currentChunk ≤ (C.length : Int); omega, fun _ => hg, ?_⟩
      intro i hi
      simp only [List.mem_append, List.mem_singleton] at hi
      rcases hi with hi | rfl
      · exact h3 i hi
      · exact hg
    · simpa using .inl hg

theorem inv_play {C : List String} {s : Engine} (h : Inv C s) :
    Inv C (play C s) := by
  unfold play
  split
  · exact h
  · split
    · exact inv_speakChunk ⟨h.1, h.2.1, h.2.2⟩
    · exact inv_speakChunk (inv_cancel h)

theorem inv_prevChunk {C : List String} {s : Engine} (h : Inv C s) :
    Inv C (prevChunk C s) := by
  obtain ⟨h1, h2, h3⟩ := h
  refine inv_updateDisplay (inv_savePosition ⟨?_, ?_, ?_⟩) ?_
  · show max 0 (s.currentChunk - 1) ≤ (C.length : Int)
    omega
  · intro hx
    simp at hx
  · exact h3
  · rcases Nat.eq_zero_or_pos C.length with hz | hz
    · exact .inr hz
    · refine .inl ?_
      show max 0 (s.currentChunk - 1) < (C.length : Int)
      omega

theorem inv_nextChunk {C : List String} {s : Engine} (h : Inv C s) :
    Inv C (nextChunk C s) := by
  obtain ⟨h1, h2, h3⟩ := h
  refine inv_updateDisplay (inv_savePosition ⟨?_, ?_, ?_⟩) ?_
  · show min ((C.length : Int) - 1) (s.currentChunk + 1) ≤ (C.length : Int)
    omega
  · intro hx
    simp at hx
  · exact h3
  · rcases Nat.eq_zero_or_pos C.length with hz | hz
    · exact .inr hz
    · refine .inl ?_
      show min ((C.length : Int) - 1) (s.currentChunk + 1) < (C.length : Int)
      omega

theorem inv_resetPosition {C : List String} {s : Engine} (h : Inv C s) :
    Inv C (resetPosition C s) := by
  obtain ⟨h1, h2, h3⟩ := h
  refine inv_updateDisplay (inv_savePosition ⟨?_, ?_, ?_⟩) ?_
  · show (0 : Int) ≤ (C.length : Int)
    omega
  · intro hx
    simp at hx
  · exact h3
  · rcases Nat.eq_zero_or_pos C.length with hz | hz
    · exact .inr hz
    · refine .inl ?_
      show (0 : Int) < (C.length : Int)
      omega

theorem inv_onWord {C : List String} {s : Engine} (h : Inv C s)
    (hs : s.speaking = true) : Inv C (onWordHandler C s) := by
  apply inv_savePosition
  refine inv_updateDisplay ?_ ?_
  · exact ⟨h.1, fun _ => h.2.1 hs, h.2.2⟩
  · exact .inl (h.2.1 hs)

theorem inv_onEnded {C : List String} {s : Engine} (h : Inv C s)
    (hc : s.currentChunk < (C.length : Int)) :
    Inv C (onEndedHandler C s) := by
  obtain ⟨h1, h2, h3⟩ := h
  unfold onEndedHandler
  split
  · exact ⟨h1, h2, h3⟩
  · dsimp only
    split
    · rename_i hlt
      refine inv_speakChunk ⟨?_, ?_, ?_⟩
      · show s.currentChunk + 1 ≤ (C.length : Int)
        omega
      · intro _
        show s.currentChunk + 1 < (C.length : Int)
        exact hlt
      · exact h3
    · refine ⟨?_, ?_, ?_⟩
      · show s.currentChunk + 1 ≤ (C.length : Int)
        omega
      · intro hx
        simp [stop] at hx
      · exact h3

theorem inv_step {C : List String} {s s1 : Engine} {e : Ev} (h : Inv C s)
    (hs : step C s e = some s1) : Inv C s1 := by
  cases e <;> simp only [step, Option.some.injEq] at hs
  case press_play => exact hs ▸ inv_play h
  case press_pause => exact hs ▸ inv_pause h
  case press_stop => exact hs ▸ inv_stop h
  case press_prev => exact hs ▸ inv_prevChunk h
  case press_next => exact hs ▸ inv_nextChunk h
  case press_reset => exact hs ▸ inv_resetPosition h
  case word =>
    split at hs
    · injection hs with hs
      subst hs
      exact inv_onWord h (by assumption)
    · exact Option.noConfusion hs
  case ended =>
    split at hs
    · rename_i hsp
      injection hs with hs
      subst hs
      exact inv_onEnded (inv_cancel h) (h.2.1 hsp)
    · exact Option.noConfusion hs

theorem inv_runFrom {C : List String} {s s1 : Engine} {evs : List Ev}
    (h : Inv C s) (hr : runFrom C s evs = some s1) : Inv C s1 := by
  induction evs generalizing s with
  | nil =>
    simp only [runFrom] at hr
    cases hr
    exact h
  | cons e evs ih =>
    simp only [runFrom] at hr
    split at hr
    · cases hr
    · rename_i s2 hstep
      exact ih (inv_step h hstep) hr

theorem loadPosition_ok_bound {n : Int} {cur : Int × Int} {saved : Option StoredBlob}
    {c w : Int} (h : loadPosition n cur saved = .ok (c, w)) :
    c ≤ n - 1 ∨ c = cur.1 := by
  rcases saved with _ | bl
  · simp only [loadPosition, Except.ok.injEq] at h
    exact .inr (by rw [h])
  · rcases bl with _ | ⟨bc, bw⟩
    · simp only [loadPosition] at h
      exact Except.noConfusion h
    · simp only [loadPosition, Except.ok.injEq, Prod.mk.injEq] at h
      exact .inl (by omega)

theorem inv_initEngine {C : List String} {saved : Option StoredBlob} {s : Engine}
    (h : initEngine C saved = some s) : Inv C s := by
  unfold initEngine at h
  rcases hload : loadPosition (C.length : Int) (0, 0) saved with e | p
  · rw [hload] at h
    exact Option.noConfusion h
  · obtain ⟨c, w⟩ := p
    rw [hload] at h
    injection h with h
    subst h
    have hcb : c ≤ (C.length : Int) - 1 ∨ c = (0 : Int) := loadPosition_ok_bound hload
    refine inv_updateDisplay ⟨?_, ?_, ?_⟩ ?_
    · show c ≤ (C.length : Int)
      omega
    · intro hx
      simp at hx
    · intro i hi
      simp at hi
    · rcases Nat.eq_zero_or_pos C.length with hz | hz
      · exact .inr hz
      · refine .inl ?_
        show c < (C.length : Int)
        omega

theorem inv_runTrace {C : List String} {saved : Option StoredBlob}
    {evs : List Ev} {s : Engine} (h : runTrace C saved evs = some s) :
    Inv C s := by
  unfold runTrace at h
  split at h
  · cases h
  · rename_i s0 hinit
    exact inv_runFrom (inv_initEngine hinit) h

/-- C3: when the natural end of the last chunk is reached, the engine
transitions to Stopped (the `currentChunk < chunks.length` test fails, so
`stop()` runs) and no chunk at an index at or beyond the chunk count is
ever loaded or synthesised: along every executable event trace from a
freshly initialised component (any stored blob), every recorded read of
`chunks[i]` — by `speakChunk` before handing text to the synthesiser and
by `updateDisplay` — satisfies `i < chunks.length`. -/
theorem C3_no_out_of_range_access (C : List String) (saved : Option StoredBlob)
    (evs : List Ev) (i : Int) (hi : i ∈ accessesOf C saved evs) :
    i < (C.length : Int) := by
  unfold accessesOf at hi
  rcases hr : runTrace C saved evs with _ | s
  · rw [hr] at hi
    cases hi
  · rw [hr] at hi
    exact (inv_runTrace hr).2.2 i hi

/-- C3 witness: the scenario trace that plays both chunks to natural
completion records only in-range reads. -/
theorem C3_no_out_of_range_access_witness :
    ((0 : Int) ∈ accessesOf scenarioChunks none
        [.press_play, .word, .word, .ended, .ended]) ∧
    (0 : Int) < (scenarioChunks.length : Int) :=
  ⟨by decide, C3_no_out_of_range_access scenarioChunks none
      [.press_play, .word, .word, .ended, .ended] 0 (by decide)⟩

/-- C1 counterexample: play the scenario document and deliver two word
boundaries, reaching a Playing state whose word offset is 1; pressing
Stop leaves the word offset at 1 — it is not reset to 0 as the claim
states (the chunk index is retained and the state becomes Stopped). -/
theorem C1_counterexample :
    ((runTrace scenarioChunks none [.press_play, .word, .word]).map
        (fun s => (mode s, s.currentWord, (stop s).currentWord,
          (stop s).currentChunk, mode (stop s)))
      = some (.Playing, 1, 1, 0, .Stopped)) ∧ (1 : Int) ≠ 0 := by
  decide

/-- C1 (amended): `stop()` halts output (cancels the utterance),
transitions the engine to Stopped, and persists the position, but it
retains both the current chunk index and the current intra-chunk word
offset — the offset is not reset to 0. -/
theorem C1_stop_behavior (s : Engine) :
    mode (stop s) = .Stopped ∧
    (stop s).speaking = false ∧
    (stop s).currentChunk = s.currentChunk ∧
    (stop s).currentWord = s.currentWord ∧
    (stop s).stored = some (.pos (some s.currentChunk) (some s.currentWord)) := by
  refine ⟨?_, ?_, ?_, ?_, ?_⟩ <;> simp [mode, stop]

/-- C2 counterexample: running the spec scenario (play, two word
boundaries, two natural chunk ends) leaves `currentChunk = 2`, the chunk
count — not 1, the last index, as the claim states. -/
theorem C2_counterexample :
    ((runTrace scenarioChunks none [.press_play, .word, .word, .ended, .ended]).map
        Engine.currentChunk = some 2) ∧ (2 : Int) ≠ 1 := by
  decide

/-- C2 (amended): on chunks `["Hello world", "Second paragraph here"]`
starting idle, `play()` enters Playing at chunk 0; the word-boundary
events set the offset to 0 then 1; the first end-of-chunk event moves to
chunk 1 offset 0 still Playing (synthesising the second chunk); the
second end-of-chunk event transitions to Stopped with the "Finished!"
status — but with `currentChunk = 2` (one past the last index; it is
clamped back to 1 only by `loadPosition` on the next initialisation). -/
theorem C2_scenario :
    ((runTrace scenarioChunks none [.press_play]).map
        (fun s => (mode s, s.currentChunk, s.currentWord, s.synthRequests))
      = some (.Playing, 0, 0, ["Hello world"])) ∧
    ((runTrace scenarioChunks none [.press_play, .word]).map
        (fun s => (mode s, s.currentChunk, s.currentWord))
      = some (.Playing, 0, 0)) ∧
    ((runTrace scenarioChunks none [.press_play, .word, .word]).map
        (fun s => (mode s, s.currentChunk, s.currentWord))
      = some (.Playing, 0, 1)) ∧
    ((runTrace scenarioChunks none [.press_play, .word, .word, .ended]).map
        (fun s => (mode s, s.currentChunk, s.currentWord, s.synthRequests))
      = some (.Playing, 1, 0, ["Hello world", "Second paragraph here"])) ∧
    ((runTrace scenarioChunks none [.press_play, .word, .word, .ended, .ended]).map
        (fun s => (mode s, s.currentChunk, s.currentWord, s.status))
      = some (.Stopped, 2, 0, .finished)) := by
  refine ⟨by decide, by decide, by decide, by decide, by decide⟩

/-- C5 counterexample: after `play()` then `stop()` the utterance is
cancelled (`speaking = false`) and the position is chunk 0, yet
delivering the stale `onend` callback of the cancelled utterance changes
the position to chunk 1 and even hands the next chunk to the
synthesiser — a stale callback is not discarded. -/
theorem C5_counterexample :
    (runTrace scenarioChunks none [.press_play, .press_stop]).map
        (fun s => (s.speaking, s.currentChunk,
          (onEndedHandler scenarioChunks s).currentChunk,
          (onEndedHandler scenarioChunks s).speaking,
          (onEndedHandler scenarioChunks s).synthRequests))
      = some (false, 0, 1, true, ["Hello world", "Second paragraph here"]) := by
  decide

/-- C5 (amended): every transition that leaves Playing does cancel the
active synthesis first — `pause`, `stop`, navigation and reset all leave
`speaking = false`, and a non-paused `play()` factors through
`synth.cancel()` — but there is no generation token: a stale end
callback is discarded only when `isPaused` is true (the `pause`/
navigation transitions), while after `stop()` (`isPaused = false`) it
still mutates the position, and a stale word-boundary callback is never
guarded at all. -/
theorem C5_cancellation :
    (∀ s : Engine, (pause s).speaking = false ∧ (pause s).isPaused = true) ∧
    (∀ s : Engine, (stop s).speaking = false ∧ (stop s).isPaused = false) ∧
    (∀ (C : List String) (s : Engine),
      (prevChunk C s).speaking = false ∧ (prevChunk C s).isPaused = true) ∧
    (∀ (C : List String) (s : Engine),
      (nextChunk C s).speaking = false ∧ (nextChunk C s).isPaused = true) ∧
    (∀ (C : List String) (s : Engine), (resetPosition C s).speaking = false) ∧
    (∀ (C : List String) (s : Engine), s.isPaused = false →
      play C s = if C.length = 0 then s else speakChunk C (cancel s)) ∧
    (∀ (C : List String) (s : Engine), s.isPaused = true →
      onEndedHandler C s = s) := by
  refine ⟨fun s => ⟨by simp [pause], by simp [pause]⟩,
    fun s => ⟨by simp [stop], by simp [stop]⟩,
    fun C s => ⟨by simp [prevChunk], by simp [prevChunk]⟩,
    fun C s => ⟨by simp [nextChunk], by simp [nextChunk]⟩,
    fun C s => by simp [resetPosition],
    fun C s hp => ?_, fun C s hp => ?_⟩
  · unfold play
    rw [hp]
    split <;> simp
  · unfold onEndedHandler
    rw [hp]
    simp

/-- C5 witness: the amended cancellation facts at concrete states. -/
theorem C5_cancellation_witness :
    (pause sampleIdle).speaking = false ∧
    onEndedHandler scenarioChunks samplePaused = samplePaused :=
  ⟨(C5_cancellation.1 sampleIdle).1,
    C5_cancellation.2.2.2.2.2.2 scenarioChunks samplePaused rfl⟩

/-- C6: in incremental-synthesis mode, for a chunk and a word index k
with 0 < k < (number of whitespace-separated words of the chunk), playing
from a state paused at word k hands the synthesis capability exactly the
chunk's word sequence sliced from index k onward (joined by single
spaces), not the full chunk text from word 0. -/
theorem C6_resume_slice (C : List String) (s : Engine) (chunk : String)
    (hp : s.isPaused = true)
    (h0 : 0 ≤ s.currentChunk)
    (hN : s.currentChunk < (C.length : Int))
    (hch : getChunk C s.currentChunk = chunk)
    (hk0 : 0 < s.currentWord)
    (hkN : s.currentWord < ((wordsOf chunk).length : Int)) :
    (play C s).synthRequests =
      s.synthRequests ++
        [String.intercalate " " ((wordsOf chunk).drop s.currentWord.toNat)] := by
  have hNz : C.length ≠ 0 := by omega
  have hg : ((C.length : Int) ≤ s.currentChunk) = False :=
    eq_false (by omega)
  have hcond : (0 < s.currentWord ∧
      s.currentWord < ((wordsOf chunk).length : Int)) = True :=
    eq_true ⟨hk0, hkN⟩
  simp only [play, hNz, if_false, hp, if_true, speakChunk,
    updateDisplay_synthRequests, hch, hg, hcond]

/-- C6 witness: paused at word 1 of "Hello world today", pressing Play
requests synthesis of "world today". -/
theorem C6_resume_slice_witness :
    (play ["Hello world today"] samplePausedMid).synthRequests = ["world today"] := by
  simpa using C6_resume_slice ["Hello world today"] samplePausedMid
    "Hello world today" rfl (by decide) (by decide) (by decide) (by decide) (by decide)

theorem nextChunk_currentChunk (C : List String) (s : Engine) :
    (nextChunk C s).currentChunk = min ((C.length : Int) - 1) (s.currentChunk + 1) := by
  simp [nextChunk]

theorem prevChunk_currentChunk (C : List String) (s : Engine) :
    (prevChunk C s).currentChunk = max 0 (s.currentChunk - 1) := by
  simp [prevChunk]

theorem nextChunk_iterate (C : List String) (k : Nat) :
    ∀ s : Engine, ((nextChunk C)^[k + 1] s).currentChunk =
      min ((C.length : Int) - 1) (s.currentChunk + (k : Int) + 1) := by
  induction k with
  | zero =>
    intro s
    simpa using nextChunk_currentChunk C s
  | succ k ih =>
    intro s
    rw [Function.iterate_succ_apply', nextChunk_currentChunk, ih s]
    push_cast
    omega

/-- C7: for every chunk count N ≥ 1 (and any reachable chunk index,
i.e. `0 ≤ currentChunk ≤ N`), `nextChunk()` and `prevChunk()` clamp the
target index into `[0, N-1]`, reset the intra-chunk word offset to 0,
persist the clamped position, cancel synthesis and leave the engine
Paused without issuing any synthesis request; iterating `nextChunk()`
from chunk 0 exactly N-1 times and then once more leaves the index at
N-1 (no overflow); `prevChunk()` at chunk 0 leaves the index 0. -/
theorem C7_navigation_clamps :
    (∀ (C : List String) (s : Engine), 1 ≤ C.length → 0 ≤ s.currentChunk →
      s.currentChunk ≤ (C.length : Int) →
      (0 ≤ (nextChunk C s).currentChunk ∧
       (nextChunk C s).currentChunk ≤ (C.length : Int) - 1 ∧
       (nextChunk C s).currentWord = 0 ∧
       mode (nextChunk C s) = .Paused ∧
       (nextChunk C s).speaking = false ∧
       (nextChunk C s).synthRequests = s.synthRequests ∧
       (nextChunk C s).stored =
         some (.pos (some ((nextChunk C s).currentChunk)) (some 0)) ∧
       0 ≤ (prevChunk C s).currentChunk ∧
       (prevChunk C s).currentChunk ≤ (C.length : Int) - 1 ∧
       (prevChunk C s).currentWord = 0 ∧
       mode (prevChunk C s) = .Paused ∧
       (prevChunk C s).speaking = false ∧
       (prevChunk C s).synthRequests = s.synthRequests ∧
       (prevChunk C s).stored =
         some (.pos (some ((prevChunk C s).currentChunk)) (some 0)))) ∧
    (∀ (C : List String) (s : Engine), 1 ≤ C.length → s.currentChunk = 0 →
      ((nextChunk C)^[C.length] s).currentChunk = (C.length : Int) - 1) ∧
    (∀ (C : List String) (s : Engine), s.currentChunk = 0 →
      (prevChunk C s).currentChunk = 0) := by
  refine ⟨fun C s hn h0 hub => ?_, fun C s hn h0 => ?_, fun C s h0 => ?_⟩
  · refine ⟨?_, ?_, ?_, ?_, ?_, ?_, ?_, ?_, ?_, ?_, ?_, ?_, ?_, ?_⟩
    · rw [nextChunk_currentChunk]
      omega
    · rw [nextChunk_currentChunk]
      omega
    · simp [nextChunk]
    · simp [nextChunk, mode]
    · simp [nextChunk]
    · simp [nextChunk]
    · simp [nextChunk]
    · rw [prevChunk_currentChunk]
      omega
    · rw [prevChunk_currentChunk]
      omega
    · simp [prevChunk]
    · simp [prevChunk, mode]
    · simp [prevChunk]
    · simp [prevChunk]
    · simp [prevChunk]
  · obtain ⟨k, hk⟩ : ∃ k, C.length = k + 1 := ⟨C.length - 1, by omega⟩
    rw [hk, nextChunk_iterate C k s, h0]
    push_cast
    omega
  · rw [prevChunk_currentChunk, h0]
    decide

/-- C7 witness: on a three-chunk document, three `nextChunk()` presses
from chunk 0 end at chunk 2, and `prevChunk()` at chunk 0 stays at 0
with word offset reset. -/
theorem C7_navigation_clamps_witness :
    ((nextChunk ["a", "b", "c"])^[3] sampleIdle).currentChunk = 2 ∧
    (prevChunk ["a", "b", "c"] sampleIdle).currentChunk = 0 ∧
    (nextChunk ["a", "b", "c"] sampleIdle).currentWord = 0 := by
  refine ⟨?_, ?_, ?_⟩
  · simpa using C7_navigation_clamps.2.1 ["a", "b", "c"] sampleIdle (by decide) (by decide)
  · exact C7_navigation_clamps.2.2 ["a", "b", "c"] sampleIdle (by decide)
  · exact (C7_navigation_clamps.1 ["a", "b", "c"] sampleIdle (by decide) (by decide)
      (by decide)).2.2.1

/-- C4 counterexample: a stored blob with a negative chunk index is not
clamped from below — loading it yields the negative index `-3`
unchanged — and a stored string rejected by `JSON.parse` makes the load
throw instead of being tolerated. -/
theorem C4_counterexample :
    loadPosition 3 (0, 0) (some (.pos (some (-3)) (some 0))) = .ok (-3, 0) ∧
    (-3 : Int) < 0 ∧
    loadPosition 3 (0, 0) (some .malformed) = .error () := by
  refine ⟨rfl, by decide, rfl⟩

/-- C4 (amended): loading a stored position never throws on a blob the
JSON parser accepts: a parsed blob yields
`Math.min(chunk || 0, N - 1)` — so a chunk index ≥ N is clamped to N-1
and a missing field becomes 0 — and a missing blob leaves the position
unchanged.  But a blob the JSON parser rejects raises an exception, and
a negative stored chunk index is preserved, so the resulting index can
be negative (there is no lower clamp). -/
theorem C4_load_clamps_upper (n : Int) (cur : Int × Int) (c w : Option Int) :
    loadPosition n cur (some (.pos c w)) = .ok (min (jsOrZero c) (n - 1), jsOrZero w) ∧
    min (jsOrZero c) (n - 1) ≤ n - 1 ∧
    loadPosition n cur none = .ok cur ∧
    loadPosition n cur (some .malformed) = .error () :=
  ⟨rfl, min_le_right _ _, rfl, rfl⟩

/-- C9: for a valid position (0 ≤ chunkIndex < N, 0 ≤ word offset) and
an unchanged chunk count, the blob written by `savePosition()` is read
back unchanged by `loadPosition()`. -/
theorem C9_roundtrip (s : Engine) (n : Int)
    (h1 : 0 ≤ s.currentChunk) (h2 : s.currentChunk < n)
    (h3 : 0 ≤ s.currentWord) :
    loadPosition n (0, 0) (savePosition s).stored =
      .ok (s.currentChunk, s.currentWord) := by
  have hmin : min s.currentChunk (n - 1) = s.currentChunk := by omega
  simp [loadPosition, jsOrZero, hmin]

/-- C9 witness: the position (chunk 1, word 4) round-trips through the
store for a document of 3 chunks. -/
theorem C9_roundtrip_witness :
    loadPosition 3 (0, 0) (savePosition samplePositioned).stored = .ok (1, 4) :=
  C9_roundtrip samplePositioned 3 (by decide) (by decide) (by decide)

end AutoReader

namespace Extractors

/-- A separator match consumes at least one character beyond the head. -/
theorem trySep_length {l rest : List Char} (h : trySep l = some rest) :
    rest.length < l.length := by
  match l with
  | [] => exact Option.noConfusion h
  | c :: cs =>
    simp only [trySep] at h
    split at h
    · split at h
      · injection h with h
        subst h
        simp only [List.length_drop, List.length_cons]
        omega
      · exact Option.noConfusion h
    · exact Option.noConfusion h

/-- The splitting scan is independent of the fuel, provided the fuel
exceeds the number of remaining characters — so `splitSep`'s choice of
`l.length + 1` is canonical. -/
theorem splitSepF_fuel : ∀ (n f1 f2 : Nat) (l acc : List Char),
    l.length ≤ n → l.length < f1 → l.length < f2 →
    splitSepF f1 l acc = splitSepF f2 l acc := by
  intro n
  induction n with
  | zero =>
    intro f1 f2 l acc h1 _ _
    have : l = [] := List.length_eq_zero.mp (by omega)
    subst this
    cases f1 <;> cases f2 <;> rfl
  | succ n ih =>
    intro f1 f2 l acc h1 h2 h3
    match l with
    | [] => cases f1 <;> cases f2 <;> rfl
    | c :: cs =>
      obtain ⟨a, rfl⟩ : ∃ a, f1 = a + 1 := ⟨f1 - 1, by omega⟩
      obtain ⟨b, rfl⟩ : ∃ b, f2 = b + 1 := ⟨f2 - 1, by omega⟩
      rcases hsep : trySep (c :: cs) with _ | rest
      · simp only [splitSepF, hsep]
        simp only [List.length_cons] at h1 h2 h3
        exact ih a b cs (c :: acc) (by omega) (by omega) (by omega)
      · have hlen := trySep_length hsep
        simp only [splitSepF, hsep]
        simp only [List.length_cons] at h1 h2 h3 hlen
        rw [ih a b rest [] (by omega) (by omega) (by omega)]

theorem stripChars_eq (l : List Char) :
    stripChars l = List.rdropWhile isPySpace (l.dropWhile isPySpace) := rfl

theorem goodBuf_stripChars (l : List Char) : GoodBuf (stripChars l) := by
  constructor
  · rw [stripChars_eq]
    obtain ⟨t, ht⟩ :=
      List.rdropWhile_prefix isPySpace (l.dropWhile isPySpace)
    rcases hrd : List.rdropWhile isPySpace (l.dropWhile isPySpace) with _ | ⟨h, r⟩
    · rfl
    · rw [hrd] at ht
      have hw : (l.dropWhile isPySpace).dropWhile isPySpace = l.dropWhile isPySpace :=
        List.dropWhile_idempotent isPySpace l

      rw [← ht] at hw
      have hh : ¬ isPySpace h = true := by
        have := (List.dropWhile_eq_self_iff.mp hw) (by simp)
        simpa using this
      simp [List.dropWhile_cons, hh]
  · rw [stripChars_eq]
    exact List.rdropWhile_idempotent isPySpace (l.dropWhile isPySpace)

theorem dropWhile_head_false {h : Char} {t : List Char}
    (hd : List.dropWhile isPySpace (h :: t) = h :: t) : isPySpace h = false := by
  have := (List.dropWhile_eq_self_iff.mp hd) (by simp)
  simpa using this

theorem rdropWhile_getLast_false {l : List Char}
    (hr : List.rdropWhile isPySpace l = l) (hne : l ≠ []) :
    isPySpace (l.getLast hne) = false := by
  have := (List.rdropWhile_eq_self_iff.mp hr) hne
  simpa using this

theorem strip_append {b c : List Char} (hb : GoodBuf b) (hc : GoodBuf c)
    (hbne : b ≠ []) (hcne : c ≠ []) :
    stripChars (b ++ ' ' :: c) = b ++ ' ' :: c := by
  rw [stripChars_eq]
  have stepA : (b ++ ' ' :: c).dropWhile isPySpace = b ++ ' ' :: c := by
    rcases b with _ | ⟨hb0, tb⟩
    · exact absurd rfl hbne
    · have hh : isPySpace hb0 = false := dropWhile_head_false hb.1
      simp [List.dropWhile_cons, hh]
  rw [stepA]
  apply List.rdropWhile_eq_self_iff.mpr
  intro hl
  have hgl : (b ++ ' ' :: c).getLast hl = c.getLast hcne := by
    rw [List.getLast_append' b (' ' :: c) (by simp), List.getLast_cons hcne]
  rw [hgl]
  simp [rdropWhile_getLast_false hc.2 hcne]

theorem stripChars_space_cons {c : List Char} (hc : GoodBuf c) :
    stripChars (' ' :: c) = c := by
  rw [stripChars_eq]
  have : (' ' :: c).dropWhile isPySpace = c.dropWhile isPySpace := by
    simp [List.dropWhile_cons, isPySpace]
  rw [this, hc.1, hc.2]

theorem occursIn_self (x : List Char) : occursIn x x :=
  ⟨[], [], by simp⟩

theorem occursIn_trans {x y z : List Char} (h1 : occursIn x y)
    (h2 : occursIn y z) : occursIn x z := by
  obtain ⟨u1, v1, rfl⟩ := h1
  obtain ⟨u2, v2, rfl⟩ := h2
  exact ⟨u2 ++ u1, v1 ++ v2, by simp⟩

theorem occursIn_append_head (b c : List Char) : occursIn b (b ++ ' ' :: c) :=
  ⟨[], ' ' :: c, by simp⟩

theorem occursIn_append_tail (b c : List Char) : occursIn c (b ++ ' ' :: c) :=
  ⟨b ++ [' '], [], by simp⟩

theorem mergeLoop_mem_out {x : List Char} (m : Nat) :
    ∀ (ps out : List (List Char)) (b : List Char), x ∈ out →
      x ∈ mergeLoop m ps out b := by
  intro ps
  induction ps with
  | nil =>
    intro out b hx
    simp only [mergeLoop]
    split
    · exact hx
    · exact List.mem_append_left _ hx
  | cons q ps ih =>
    intro out b hx
    simp only [mergeLoop]
    split
    · exact ih out b hx
    · split
      · exact ih out _ hx
      · refine ih _ _ ?_
        split
        · exact hx
        · exact List.mem_append_left _ hx

theorem mergeLoop_buffer_lands (m : Nat) :
    ∀ (ps out : List (List Char)) (b : List Char), b ≠ [] → GoodBuf b →
      ∃ y ∈ mergeLoop m ps out b, occursIn b y := by
  intro ps
  induction ps with
  | nil =>
    intro out b hbne _
    simp only [mergeLoop, if_neg hbne]
    exact ⟨b, List.mem_append_right _ (by simp), occursIn_self b⟩
  | cons q ps ih =>
    intro out b hbne hb
    simp only [mergeLoop]
    split
    · exact ih out b hbne hb
    · rename_i hq
      split
      · have hmerge : stripChars (b ++ ' ' :: stripChars q) = b ++ ' ' :: stripChars q :=
          strip_append hb (goodBuf_stripChars q) hbne hq
        obtain ⟨y, hy, hocc⟩ := ih out (stripChars (b ++ ' ' :: stripChars q))
          (by rw [hmerge]; simp) (goodBuf_stripChars _)
        refine ⟨y, hy, occursIn_trans ?_ hocc⟩
        rw [hmerge]
        exact occursIn_append_head b _
      · exact ⟨b, mergeLoop_mem_out m ps (out ++ [b]) (stripChars q)
          (List.mem_append_right _ (by simp)), occursIn_self b⟩

theorem mergeLoop_no_drop (m : Nat) :
    ∀ (ps out : List (List Char)) (b q : List Char), GoodBuf b → q ∈ ps →
      stripChars q ≠ [] →
      ∃ y ∈ mergeLoop m ps out b, occursIn (stripChars q) y := by
  intro ps
  induction ps with
  | nil =>
    intro out b q _ hq
    exact absurd hq (List.not_mem_nil q)
  | cons r ps ih =>
    intro out b q hb hq hqs
    rcases List.mem_cons.mp hq with rfl | hq'
    · simp only [mergeLoop]
      split
      · exact absurd (by assumption) hqs
      · split
        · rcases eq_or_ne b [] with rfl | hbne
          · have hsp : stripChars ([] ++ ' ' :: stripChars q) = stripChars q := by
              rw [List.nil_append]
              exact stripChars_space_cons (goodBuf_stripChars q)
            rw [hsp]
            exact mergeLoop_buffer_lands m ps out (stripChars q) hqs
              (goodBuf_stripChars q)
          · have hmerge : stripChars (b ++ ' ' :: stripChars q) = b ++ ' ' :: stripChars q :=
              strip_append hb (goodBuf_stripChars q) hbne hqs
            obtain ⟨y, hy, hocc⟩ := mergeLoop_buffer_lands m ps out
              (stripChars (b ++ ' ' :: stripChars q)) (by rw [hmerge]; simp)
              (goodBuf_stripChars _)
            refine ⟨y, hy, occursIn_trans ?_ hocc⟩
            rw [hmerge]
            exact occursIn_append_tail b _
        · exact mergeLoop_buffer_lands m ps _ (stripChars q) hqs
            (goodBuf_stripChars q)
    · simp only [mergeLoop]
      split
      · exact ih out b q hb hq' hqs
      · split
        · exact ih out _ q (goodBuf_stripChars _) hq' hqs
        · exact ih _ _ q (goodBuf_stripChars r) hq' hqs

theorem mergeLoop_ne_nil (m : Nat) :
    ∀ (ps out : List (List Char)) (b : List Char),
      (∀ x ∈ out, x ≠ []) → ∀ x ∈ mergeLoop m ps out b, x ≠ [] := by
  intro ps
  induction ps with
  | nil =>
    intro out b hout x hx
    simp only [mergeLoop] at hx
    rcases eq_or_ne b [] with rfl | hbne
    · rw [if_pos rfl] at hx
      exact hout x hx
    · rw [if_neg hbne] at hx
      rcases List.mem_append.mp hx with hx | hx
      · exact hout x hx
      · rw [List.mem_singleton.mp hx]
        exact hbne
  | cons q ps ih =>
    intro out b hout x hx
    simp only [mergeLoop] at hx
    split at hx
    · exact ih out b hout x hx
    · split at hx
      · exact ih out _ hout x hx
      · refine ih _ _ ?_ x hx
        intro z hz
        rcases eq_or_ne b [] with rfl | hbne
        · rw [if_pos rfl] at hz
          exact hout z hz
        · rw [if_neg hbne] at hz
          rcases List.mem_append.mp hz with hz | hz
          · exact hout z hz
          · rw [List.mem_singleton.mp hz]
            exact hbne

/-- C8 counterexample: on the input consisting of the 2-character
paragraph "hi" followed (after a blank line) by a 60-character
paragraph, with the default `min_length = 50`, the short paragraph is
emitted as its own chunk — it is not merged into its successor as the
claim states (the code merges only while the combined length stays
below `min_length`). -/
theorem C8_merge_defect_eval :
    chunk_into_paragraphs shortThenLong 50 =
      ["hi", String.mk (List.replicate 60 'a')] ∧
    "hi".length < 50 := by
  refine ⟨by decide, by decide⟩

/-- C8 (amended): `chunk_into_paragraphs` splits on blank-line paragraph
boundaries into an ordered sequence of non-empty chunks and never drops
trailing text — every non-whitespace paragraph of the split occurs
contiguously in some returned chunk, including the final buffer; however
a paragraph is merged into the pending buffer only when the combined
length stays below the minimum, and otherwise the pending buffer (which
may itself still be shorter than the minimum) is flushed unmerged and
the paragraph starts a new buffer. -/
theorem C8_chunking :
    (∀ (text : String) (minLen : Nat) (c : String),
      c ∈ chunk_into_paragraphs text minLen → c ≠ "") ∧
    (∀ (text : String) (minLen : Nat) (p : List Char),
      p ∈ splitSep text.data → stripChars p ≠ [] →
      ∃ c ∈ chunk_into_paragraphs text minLen, occursIn (stripChars p) c.data) ∧
    (∀ (m : Nat) (ps out : List (List Char)) (b p : List Char),
      stripChars p ≠ [] →
      (b.length + (stripChars p).length < m →
        mergeLoop m (p :: ps) out b =
          mergeLoop m ps out (stripChars (b ++ ' ' :: stripChars p))) ∧
      (¬ b.length + (stripChars p).length < m →
        mergeLoop m (p :: ps) out b =
          mergeLoop m ps (if b = [] then out else out ++ [b]) (stripChars p))) := by
  refine ⟨?_, ?_, ?_⟩
  · intro text minLen c hc
    unfold chunk_into_paragraphs at hc
    obtain ⟨l, hl, rfl⟩ := List.mem_map.mp hc
    have hne : l ≠ [] := mergeLoop_ne_nil minLen (splitSep text.data) [] []
      (by intro x hx; exact absurd hx (List.not_mem_nil x)) l hl
    intro hcon
    exact hne (congrArg String.data hcon)
  · intro text minLen p hp hps
    obtain ⟨y, hy, hocc⟩ := mergeLoop_no_drop minLen (splitSep text.data) [] [] p
      ⟨rfl, by simp [List.rdropWhile]⟩ hp hps
    exact ⟨String.mk y, List.mem_map.mpr ⟨y, hy, rfl⟩, hocc⟩
  · intro m ps out b p hps
    constructor
    · intro hlen
      simp only [mergeLoop, if_neg hps, if_pos hlen]
    · intro hlen
      simp only [mergeLoop, if_neg hps, if_neg hlen]

/-- C8 witness: on the document "hi\n\nyo" both paragraphs survive into
the single merged chunk, which is non-empty, and the merge-step equation
holds at a concrete instance. -/
theorem C8_chunking_witness :
    ("hi".data ∈ splitSep ("hi" ++ "\n\n" ++ "yo").data) ∧
    (stripChars "hi".data ≠ []) ∧
    (∃ c ∈ chunk_into_paragraphs ("hi" ++ "\n\n" ++ "yo") 50,
      occursIn (stripChars "hi".data) c.data) ∧
    ("hi yo" ∈ chunk_into_paragraphs ("hi" ++ "\n\n" ++ "yo") 50 → "hi yo" ≠ "") :=
  ⟨by decide, by decide,
    C8_chunking.2.1 ("hi" ++ "\n\n" ++ "yo") 50 "hi".data (by decide) (by decide),
    C8_chunking.1 ("hi" ++ "\n\n" ++ "yo") 50 "hi yo"⟩

/-- C10: for every declared file type outside the four routed MIME
types, `extract_text` does not fail — it falls back to reading the file
as plain text, returning exactly `extract_txt(file_path)`. -/
theorem C10_fallback_plain_text
    (extract_pdf extract_epub extract_docx extract_txt : String → String)
    (file_path file_type : String)
    (h1 : file_type ≠ "application/pdf")
    (h2 : file_type ≠ "application/epub+zip")
    (h3 : file_type ≠
      "application/vnd.openxmlformats-officedocument.wordprocessingml.document")
    (h4 : file_type ≠ "text/plain") :
    extract_text extract_pdf extract_epub extract_docx extract_txt
        file_path file_type =
      extract_txt file_path := by
  simp [extract_text, extractorFor, h1, h2, h3, h4]

/-- C10 witness: a Markdown upload (MIME type `text/markdown`, accepted
by the uploader but absent from the routing dictionary) is read via the
plain-text extractor. -/
theorem C10_fallback_plain_text_witness :
    extract_text (fun p => "pdf:" ++ p) (fun p => "epub:" ++ p)
        (fun p => "docx:" ++ p) (fun p => "txt:" ++ p)
        "notes.md" "text/markdown" = "txt:notes.md" := by
  simpa using C10_fallback_plain_text (fun p => "pdf:" ++ p)
    (fun p => "epub:" ++ p) (fun p => "docx:" ++ p) (fun p => "txt:" ++ p)
    "notes.md" "text/markdown" (by decide) (by decide) (by decide) (by decide)

end Extractors
